import Mathlib

/-!
Verification development for the BrainSpace core: gradient embeddings of
connectivity matrices (affinity construction followed by linear, Laplacian
eigenmap or diffusion map decompositions) and the two null-model generators
(spin permutations on spheres and Moran spectral randomization).

The repository ships the example scripts `plot_embedding_approaches.py` and
`plot_tutorial3.py`; the library components they call (GradientMaps,
SpinPermutations, MoranRandomization and the affinity builder) are modelled
here from the design specification.  Matrices are lists of rows of rationals;
the external numeric routines (kernel evaluation and the iterative
eigensolver, which live in scipy) enter as explicit function arguments, so
every pipeline step defined in this file is executable.
-/

abbrev Vec := List ℚ

abbrev Mat := List (List ℚ)

/-- Entry access with default 0 outside the stored shape. -/
def mget (M : Mat) (i j : Nat) : ℚ := (M.getD i []).getD j 0

/-- Vector entry access with default 0. -/
def vget (v : Vec) (i : Nat) : ℚ := v.getD i 0

/-- The all-ones vector, the trivial eigenvector of graph Laplacians. -/
def onesVec (n : Nat) : Vec := List.replicate n 1

/-- Sum of a list of rationals. -/
def lsum (v : Vec) : ℚ := v.foldr (· + ·) 0

/-- Dot product (truncating to the shorter list). -/
def dot (u v : Vec) : ℚ := lsum (List.zipWith (· * ·) u v)

/-- Column j of a row-major matrix, padding with 0. -/
def colAt (Mt : Mat) (j : Nat) : Vec := Mt.map (fun row => row.getD j 0)

/-- Scale every entry of a vector. -/
def scaleVec (c : ℚ) (v : Vec) : Vec := v.map (fun x => c * x)

/-- Square shape test: every row as long as the list of rows. -/
def isSquare (M : Mat) : Bool := M.all (fun r => r.length == M.length)

/-- Matrix product of row-major matrices (column count from the first row). -/
def matMul (A B : Mat) : Mat :=
  A.map (fun row => (List.range ((B.getD 0 []).length)).map (fun j => dot row (colAt B j)))

/-- A 64-bit linear congruential step; the explicit seeded random source that
the spec requires instead of hidden global state. -/
def lcg (s : Nat) : Nat := (6364136223846793005 * s + 1442695040888963407) % (2 ^ 64)

/-- Iterated generator state. -/
def lcgIter : Nat → Nat → Nat
  | 0, s => s
  | Nat.succ m, s => lcg (lcgIter m s)

/-- Deterministic pseudo-random rational vector derived from a seed, used as
the initial vector handed to the iterative eigensolver. -/
def randVec (n s : Nat) : Vec :=
  (List.range n).map (fun i => ((lcgIter (i + 1) s % 1009 : Nat) : ℚ) / 1009)

/-- Modelled from the spec: the kernel selector of the affinity builder. -/
inductive Kernel
  | pearson
  | spearman
  | cosine
  | normalizedAngle
  | gaussian
  | none
deriving DecidableEq

/-- Modelled from the spec: the closed family of embedding approaches. -/
inductive Approach
  | linear
  | laplacianEigenmap
  | diffusionMap
deriving DecidableEq

/-- Modelled from the spec: the error taxonomy surfaced to callers. -/
inductive Err
  | invalidInput
  | shapeMismatch
  | convergence
  | unsupportedOperation
  | singularWeightMatrix
deriving DecidableEq

deriving instance DecidableEq for Except

/-- Modelled from the spec: the kernel step of the affinity builder.  The
kernel `none` is a pass-through; the numeric kernels (correlations, cosine,
normalized angle, gaussian) are the external routine `kern`. -/
def kernelStep (kern : Mat → Mat) (kl : Kernel) (M : Mat) : Mat :=
  match kl with
  | Kernel.none => M
  | _ => kern M

/-- Modelled from the spec: keep, in one row, the entries that are among the
`k` largest (the `k` nearest neighbors); all other entries are zeroed. -/
def rowKeep (k : Nat) (r : Vec) : Vec :=
  r.map (fun x => if r.countP (fun y => decide (x < y)) < k then x else 0)

/-- Modelled from the spec: row-wise sparsification to `k` neighbors. -/
def sparsifyCount (k : Nat) (M : Mat) : Mat := M.map (rowKeep k)

/-- Modelled from the spec: symmetrization by averaging with the transpose,
producing an n-by-n matrix. -/
def symmetrize (n : Nat) (S : Mat) : Mat :=
  (List.range n).map (fun i => (List.range n).map (fun j => (mget S i j + mget S j i) / 2))

/-- Modelled from the spec: the affinity builder — kernel step, optional
sparsification to a neighbor count, then symmetrization. -/
def affinityMatrix (kern : Mat → Mat) (kl : Kernel) (sparsity : Option Nat) (M : Mat) : Mat :=
  let K := kernelStep kern kl M
  let S := match sparsity with
    | Option.none => K
    | Option.some k => sparsifyCount k K
  symmetrize M.length S

/-- Row-stochastic transition matrix of an affinity (random-walk
normalization; zero-degree rows stay zero). -/
def transition (A : Mat) : Mat :=
  let n := A.length
  (List.range n).map (fun i =>
    let d := lsum (A.getD i [])
    (List.range n).map (fun j => if d = 0 then 0 else mget A i j / d))

/-- Random-walk normalized graph Laplacian, identity minus transition. -/
def laplacian (A : Mat) : Mat :=
  let n := A.length
  let T := transition A
  (List.range n).map (fun i =>
    (List.range n).map (fun j => (if i = j then 1 else 0) - mget T i j))

/-- Ordering of eigenpairs by ascending eigenvalue. -/
def pairLE (a b : ℚ × Vec) : Prop := a.1 ≤ b.1

/-- Ordering of eigenpairs by descending eigenvalue. -/
def pairGE (a b : ℚ × Vec) : Prop := b.1 ≤ a.1

instance : DecidableRel pairLE := fun a b => inferInstanceAs (Decidable (a.1 ≤ b.1))

instance : DecidableRel pairGE := fun a b => inferInstanceAs (Decidable (b.1 ≤ a.1))

instance : IsTotal (ℚ × Vec) pairLE := ⟨fun a b => le_total a.1 b.1⟩

instance : IsTrans (ℚ × Vec) pairLE := ⟨fun _ _ _ h1 h2 => le_trans h1 h2⟩

instance : IsTotal (ℚ × Vec) pairGE := ⟨fun a b => le_total b.1 a.1⟩

instance : IsTrans (ℚ × Vec) pairGE := ⟨fun _ _ _ h1 h2 => le_trans h2 h1⟩

/-- Ascending sort of eigenpairs (Laplacian eigenmap ordering). -/
def sortAsc (l : List (ℚ × Vec)) : List (ℚ × Vec) := List.insertionSort pairLE l

/-- Descending sort of eigenpairs (linear and diffusion map ordering). -/
def sortDesc (l : List (ℚ × Vec)) : List (ℚ × Vec) := List.insertionSort pairGE l

/-- The n-by-k component matrix whose column j is the vector of pair j. -/
def componentMatrix (n : Nat) (kept : List (ℚ × Vec)) : Mat :=
  (List.range n).map (fun i => kept.map (fun p => vget p.2 i))

/-- Modelled from the spec: the fitted embedding — component scores
(`gradients_`, n rows by k columns) and importances (`lambdas_`). -/
structure GMResult where
  gradients_ : Mat
  lambdas_ : Vec
deriving DecidableEq

/-- Modelled from the spec: Laplacian eigenmap fit.  The eigensolver `eig`
receives the seeded initial vector and the Laplacian; the k smallest
non-trivial eigenpairs are returned in ascending eigenvalue order, the first
(trivial) one being discarded.  Too few eigenpairs is a convergence failure. -/
def leFit (eig : Vec → Mat → List (ℚ × Vec)) (k s : Nat) (A : Mat) : Except Err GMResult :=
  let n := A.length
  let pairs := eig (randVec n s) (laplacian A)
  let sorted := sortAsc pairs
  if k + 1 ≤ sorted.length then
    let kept := (sorted.drop 1).take k
    Except.ok ⟨componentMatrix n kept, kept.map (fun p => p.1)⟩
  else Except.error Err.convergence

/-- Modelled from the spec: diffusion map fit.  Right eigenpairs of the
transition matrix, descending eigenvalue order, trivial top pair discarded,
vectors scaled by eigenvalue raised to the diffusion time. -/
def dmFit (eig : Vec → Mat → List (ℚ × Vec)) (k dtime s : Nat) (A : Mat) : Except Err GMResult :=
  let n := A.length
  let pairs := eig (randVec n s) (transition A)
  let sorted := sortDesc pairs
  if k + 1 ≤ sorted.length then
    let kept := (sorted.drop 1).take k
    Except.ok ⟨componentMatrix n (kept.map (fun p => (p.1, scaleVec (p.1 ^ dtime) p.2))),
               kept.map (fun p => p.1)⟩
  else Except.error Err.convergence

/-- Modelled from the spec: linear (PCA) fit — top k singular pairs of the
affinity, descending importance, scores scaled by the singular values. -/
def linearFit (eig : Vec → Mat → List (ℚ × Vec)) (k s : Nat) (A : Mat) : Except Err GMResult :=
  let n := A.length
  let pairs := eig (randVec n s) A
  let sorted := sortDesc pairs
  if k ≤ sorted.length then
    let kept := sorted.take k
    Except.ok ⟨componentMatrix n (kept.map (fun p => (p.1, scaleVec p.1 p.2))),
               kept.map (fun p => p.1)⟩
  else Except.error Err.convergence

/-- Modelled from the spec and the example script: GradientMaps is configured
at construction by the keyword arguments n_gradients, approach, kernel and
random_state. -/
structure GradientMaps where
  n_gradients : Nat
  approach : Approach
  kernel : Kernel
  random_state : Option Nat
deriving DecidableEq

/-- Modelled from the spec: the GradientMaps fit orchestration.  It validates
the input shape, builds the affinity, seeds the random stream from
random_state when set (and from ambient entropy otherwise) and dispatches on
the approach.  `kern` and `eig` are the external numeric routines. -/
def GradientMaps.fit (gm : GradientMaps) (kern : Mat → Mat) (eig : Vec → Mat → List (ℚ × Vec))
    (sparsity : Option Nat) (dtime : Nat) (M : Mat) (entropy : Nat) : Except Err GMResult :=
  if isSquare M then
    let s := gm.random_state.getD entropy
    let A := affinityMatrix kern gm.kernel sparsity M
    match gm.approach with
    | Approach.linear => linearFit eig gm.n_gradients s A
    | Approach.laplacianEigenmap => leFit eig gm.n_gradients s A
    | Approach.diffusionMap => dmFit eig gm.n_gradients dtime s A
  else Except.error Err.invalidInput

/-- Modelled from the spec: out-of-sample projection, available for the
linear approach only; the spectral approaches fail with
UnsupportedOperationError. -/
def GradientMaps.transform (gm : GradientMaps) (r : GMResult) (X : Mat) : Except Err Mat :=
  match gm.approach with
  | Approach.linear => Except.ok (matMul X r.gradients_)
  | Approach.laplacianEigenmap => Except.error Err.unsupportedOperation
  | Approach.diffusionMap => Except.error Err.unsupportedOperation

/-- Modelled from the example script: the embedding approaches demonstrated,
selected by their short names. -/
def list_embedding : List String := ["pca", "le", "dm"]

/-- Modelled from the spec and the example script: short-name selection of
the embedding approach. -/
def parseApproach (s : String) : Option Approach :=
  if s = "pca" then Option.some Approach.linear
  else if s = "le" then Option.some Approach.laplacianEigenmap
  else if s = "dm" then Option.some Approach.diffusionMap
  else Option.none

/-- 3-d point with rational coordinates, lying on a sphere. -/
abbrev P3 := ℚ × ℚ × ℚ

/-- 3-by-3 rotation matrix type used by the spin permutations. -/
abbrev RotM := Matrix (Fin 3) (Fin 3) ℚ

/-- Apply a 3-by-3 matrix to a point. -/
def rotApply (Rm : RotM) (p : P3) : P3 :=
  (Rm 0 0 * p.1 + Rm 0 1 * p.2.1 + Rm 0 2 * p.2.2,
   Rm 1 0 * p.1 + Rm 1 1 * p.2.1 + Rm 1 2 * p.2.2,
   Rm 2 0 * p.1 + Rm 2 1 * p.2.1 + Rm 2 2 * p.2.2)

/-- Squared euclidean distance between points. -/
def sqDist (p q : P3) : ℚ :=
  (p.1 - q.1) ^ 2 + (p.2.1 - q.2.1) ^ 2 + (p.2.2 - q.2.2) ^ 2

/-- Index of a minimal entry of a list (first one on ties). -/
def argminIdx : List ℚ → Nat
  | [] => 0
  | [_] => 0
  | x :: y :: t =>
    let j := argminIdx (y :: t)
    if x ≤ (y :: t).getD j 0 then 0 else j + 1

/-- Index of the rotated point nearest to q. -/
def nnIndex (q : P3) (pts : List P3) : Nat := argminIdx (pts.map (sqDist q))

/-- Modelled from the spec: the nearest-neighbor reassignment map of a spin —
original vertex i receives the data carried by the rotated vertex nearest to
it. -/
def assignIdx (Rm : RotM) (pts : List P3) (i : Nat) : Nat :=
  nnIndex (pts.getD i (0, 0, 0)) (pts.map (rotApply Rm))

/-- Modelled from the spec: one-hemisphere spin randomization — rotate the
sphere points, then give each original vertex the datum of its nearest
rotated neighbor; missing data (NaN, modelled as `Option.none`) is carried
along, never interpolated.  A data vector of the wrong length fails with
ShapeMismatchError. -/
def randomizeHemi (Rm : RotM) (pts : List P3) (data : List (Option ℚ)) :
    Except Err (List (Option ℚ)) :=
  if data.length = pts.length then
    Except.ok ((List.range pts.length).map (fun i => data.getD (assignIdx Rm pts i) Option.none))
  else Except.error Err.shapeMismatch

/-- Sign of a rational number, valued in -1, 0, 1. -/
def qsign (x : ℚ) : ℚ := if x < 0 then -1 else if x = 0 then 0 else 1

/-- The sign-correction diagonal built from the diagonal of the triangular
QR factor. -/
def signDiag (R : RotM) : RotM := Matrix.diagonal (fun i => qsign (R i i))

/-- Modelled from the spec: the rotation drawn for one repetition — the
orthogonal QR factor of a random gaussian matrix multiplied by the sign
correction. -/
def drawRotation (Q R : RotM) : RotM := Q * signDiag R

/-- Upper triangular predicate for the QR factor R. -/
def upperTri (R : RotM) : Prop := ∀ i j : Fin 3, (j : ℕ) < (i : ℕ) → R i j = 0

/-- The reflection applied to the right-hemisphere rotation to account for
hemispheric mirroring. -/
def reflXMat : RotM := Matrix.diagonal ![-1, 1, 1]

/-- Modelled from the spec: a fitted SpinPermutations object — the rotations
drawn during fit are immutable state reused by every randomize call. -/
structure SpinPermutations where
  n_rep : Nat
  random_state : Option Nat
  rotations : List RotM

/-- Modelled from the spec: paired spin randomization of both hemispheres;
the left rotation is reused on the right after conjugation by the mirror
reflection. -/
def SpinPermutations.randomize (sp : SpinPermutations) (ptsL ptsR : List P3)
    (dL dR : List (Option ℚ)) :
    List (Except Err (List (Option ℚ)) × Except Err (List (Option ℚ))) :=
  sp.rotations.map (fun Rm =>
    (randomizeHemi Rm ptsL dL, randomizeHemi (reflXMat * Rm * reflXMat) ptsR dR))

/-- Modelled from the spec: the two Moran surrogate procedures. -/
inductive MoranProcedure
  | singleton
  | pair
deriving DecidableEq

/-- Modelled from the spec: a fitted MoranRandomization object; `evecs` are
the retained Moran eigenvectors on the unmasked vertices, immutable after
fit. -/
structure MoranRandomization where
  n_rep : Nat
  procedure : MoranProcedure
  random_state : Option Nat
  evecs : List Vec

/-- Mean of a vector (0 for the empty vector). -/
def vmean (v : Vec) : ℚ := lsum v / (v.length : ℚ)

/-- Random sign drawn from the seeded stream for repetition `rep` and
coefficient `j`. -/
def signOf (seed rep j : Nat) : ℚ :=
  if lcgIter (rep * 131 + j + 1) seed % 2 = 0 then 1 else -1

/-- Modelled from the spec: singleton procedure — project the mean-removed
data onto the eigenvectors, flip each coefficient sign at random (magnitude
preserved, phase randomized), reconstruct around the mean. -/
def singletonSurrogate (evecs : List Vec) (vals : Vec) (seed rep : Nat) : Vec :=
  let m := vmean vals
  let dev := vals.map (fun x => x - m)
  let coeffs := evecs.map (fun e => dot dev e)
  (List.range vals.length).map (fun i =>
    m + lsum ((List.range evecs.length).map (fun j =>
      signOf seed rep j * coeffs.getD j 0 * vget (evecs.getD j []) i)))

/-- Modelled from the spec: pair procedure — coefficients of consecutive
eigenvector pairs undergo a random joint orthogonal perturbation (here the
rational subgroup generated by quarter turns) before reconstruction. -/
def pairSurrogate (evecs : List Vec) (vals : Vec) (seed rep : Nat) : Vec :=
  let m := vmean vals
  let dev := vals.map (fun x => x - m)
  let coeffs := evecs.map (fun e => dot dev e)
  let perturbed := (List.range evecs.length).map (fun j =>
    if lcgIter (rep * 257 + j / 2 + 1) seed % 2 = 0 then coeffs.getD j 0
    else if j % 2 = 0 then -(coeffs.getD (j + 1) 0) else coeffs.getD (j - 1) 0)
  (List.range vals.length).map (fun i =>
    m + lsum ((List.range evecs.length).map (fun j =>
      perturbed.getD j 0 * vget (evecs.getD j []) i)))

/-- Surrogate values on the unmasked vertices for one repetition. -/
def moranSurrogate (msr : MoranRandomization) (vals : Vec) (seed rep : Nat) : Vec :=
  match msr.procedure with
  | MoranProcedure.singleton => singletonSurrogate msr.evecs vals seed rep
  | MoranProcedure.pair => pairSurrogate msr.evecs vals seed rep

/-- Reinsert surrogate values into the masked data layout: masked (NaN)
positions stay masked, unmasked positions receive the next surrogate value. -/
def reinsert : List (Option ℚ) → Vec → List (Option ℚ)
  | [], _ => []
  | Option.none :: ds, vs => Option.none :: reinsert ds vs
  | Option.some _ :: ds, [] => Option.some 0 :: reinsert ds []
  | Option.some _ :: ds, v :: vs => Option.some v :: reinsert ds vs

/-- Modelled from the spec: Moran randomization — n_rep surrogate vectors,
each rebuilt in the layout of the input data with NaNs kept in place. -/
def MoranRandomization.randomize (msr : MoranRandomization) (data : List (Option ℚ))
    (entropy : Nat) : List (List (Option ℚ)) :=
  let seed := msr.random_state.getD entropy
  (List.range msr.n_rep).map (fun rep => reinsert data (moranSurrogate msr (data.filterMap id) seed rep))

lemma getD_ge {α : Type} (d : α) : ∀ (l : List α) (i : Nat), l.length ≤ i → l.getD i d = d := by
  intro l
  induction l with
  | nil => intro i _; rfl
  | cons a t ih =>
    intro i hi
    cases i with
    | zero => simp at hi
    | succ m =>
      have hm : t.length ≤ m := by
        simp only [List.length_cons] at hi
        omega
      exact ih m hm

lemma getD_lt {α : Type} (d : α) : ∀ (l : List α) (i : Nat) (h : i < l.length), l.getD i d = l[i] := by
  intro l
  induction l with
  | nil => intro i h; simp at h
  | cons a t ih =>
    intro i hi
    cases i with
    | zero => rfl
    | succ m =>
      have hm : m < t.length := by
        simp only [List.length_cons] at hi
        omega
      exact ih m hm

lemma getD_map_range {α : Type} (f : Nat → α) (d : α) (n i : Nat) (h : i < n) :
    ((List.range n).map f).getD i d = f i := by
  have hlen : i < ((List.range n).map f).length := by simpa using h
  rw [getD_lt d _ i hlen]
  simp

lemma map_range_vget (v : Vec) (n : Nat) (h : v.length = n) :
    (List.range n).map (fun i => vget v i) = v := by
  subst h
  apply List.ext_getElem
  · simp
  · intro i h1 h2
    simp only [List.getElem_map, List.getElem_range, vget]
    rw [getD_lt 0 v i h2]

lemma getD_replicate {α : Type} (a d : α) (n i : Nat) (h : i < n) :
    (List.replicate n a).getD i d = a := by
  have hlen : i < (List.replicate n a).length := by simpa using h
  rw [getD_lt d _ i hlen]
  simp

lemma affinityMatrix_length (kern : Mat → Mat) (kl : Kernel) (sp : Option Nat) (M : Mat) :
    (affinityMatrix kern kl sp M).length = M.length := by
  simp [affinityMatrix, symmetrize]

lemma componentMatrix_length (n : Nat) (kept : List (ℚ × Vec)) :
    (componentMatrix n kept).length = n := by
  simp [componentMatrix]

lemma componentMatrix_rows (n : Nat) (kept : List (ℚ × Vec)) :
    ∀ row ∈ componentMatrix n kept, row.length = kept.length := by
  intro row hrow
  simp only [componentMatrix, List.mem_map] at hrow
  obtain ⟨i, _, rfl⟩ := hrow
  simp

lemma leFit_shapes (eig : Vec → Mat → List (ℚ × Vec)) (k s : Nat) (A : Mat) (r : GMResult)
    (h : leFit eig k s A = Except.ok r) :
    r.gradients_.length = A.length ∧ (∀ row ∈ r.gradients_, row.length = k) ∧
      r.lambdas_.length = k := by
  simp only [leFit] at h
  split at h
  case isTrue hk =>
    simp only [Except.ok.injEq] at h
    subst h
    refine ⟨componentMatrix_length _ _, ?_, ?_⟩
    · intro row hrow
      have := componentMatrix_rows _ _ row hrow
      rw [this]
      simp only [List.length_take, List.length_drop]
      omega
    · simp only [List.length_map, List.length_take, List.length_drop]
      omega
  case isFalse => exact absurd h (by simp)

lemma dmFit_shapes (eig : Vec → Mat → List (ℚ × Vec)) (k dtime s : Nat) (A : Mat) (r : GMResult)
    (h : dmFit eig k dtime s A = Except.ok r) :
    r.gradients_.length = A.length ∧ (∀ row ∈ r.gradients_, row.length = k) ∧
      r.lambdas_.length = k := by
  simp only [dmFit] at h
  split at h
  case isTrue hk =>
    simp only [Except.ok.injEq] at h
    subst h
    refine ⟨componentMatrix_length _ _, ?_, ?_⟩
    · intro row hrow
      have := componentMatrix_rows _ _ row hrow
      rw [this]
      simp only [List.length_map, List.length_take, List.length_drop]
      omega
    · simp only [List.length_map, List.length_take, List.length_drop]
      omega
  case isFalse => exact absurd h (by simp)

lemma linearFit_shapes (eig : Vec → Mat → List (ℚ × Vec)) (k s : Nat) (A : Mat) (r : GMResult)
    (h : linearFit eig k s A = Except.ok r) :
    r.gradients_.length = A.length ∧ (∀ row ∈ r.gradients_, row.length = k) ∧
      r.lambdas_.length = k := by
  simp only [linearFit] at h
  split at h
  case isTrue hk =>
    simp only [Except.ok.injEq] at h
    subst h
    refine ⟨componentMatrix_length _ _, ?_, ?_⟩
    · intro row hrow
      have := componentMatrix_rows _ _ row hrow
      rw [this]
      simp only [List.length_map, List.length_take]
      omega
    · simp only [List.length_map, List.length_take]
      omega
  case isFalse => exact absurd h (by simp)

/-- C1: for every input matrix and requested component count, a successful
GradientMaps fit returns gradients_ with one row per input row and
n_gradients columns, and lambdas_ of length n_gradients (in the exact
rational model every value is finite by construction). -/
theorem gradientmaps_fit_shapes (gm : GradientMaps) (kern : Mat → Mat)
    (eig : Vec → Mat → List (ℚ × Vec)) (sparsity : Option Nat) (dtime : Nat) (M : Mat)
    (entropy : Nat) (r : GMResult)
    (h : gm.fit kern eig sparsity dtime M entropy = Except.ok r) :
    r.gradients_.length = M.length ∧ (∀ row ∈ r.gradients_, row.length = gm.n_gradients) ∧
      r.lambdas_.length = gm.n_gradients := by
  simp only [GradientMaps.fit] at h
  split at h
  case isTrue =>
    have hA : (affinityMatrix kern gm.kernel sparsity M).length = M.length :=
      affinityMatrix_length kern gm.kernel sparsity M
    split at h
    case h_1 => exact hA ▸ linearFit_shapes _ _ _ _ _ h
    case h_2 => exact hA ▸ leFit_shapes _ _ _ _ _ h
    case h_3 => exact hA ▸ dmFit_shapes _ _ _ _ _ _ h
  case isFalse => exact absurd h (by simp)

/-- Witness for C1: a concrete Laplacian eigenmap fit on a 2-by-2 matrix
yields a 2-by-1 gradient matrix and one importance. -/
theorem gradientmaps_fit_shapes_witness :
    ([[(1 : ℚ)], [-1]] : Mat).length = ([[1, 1], [1, 1]] : Mat).length ∧
      (∀ row ∈ ([[(1 : ℚ)], [-1]] : Mat), row.length = 1) ∧ ([(1 : ℚ)] : Vec).length = 1 := by
  have h : (GradientMaps.mk 1 Approach.laplacianEigenmap Kernel.none (Option.some 0)).fit
      (fun m => m) (fun _ _ => [(0, [1, 1]), (1, [1, -1])]) Option.none 0 [[1, 1], [1, 1]] 7
      = Except.ok ⟨[[1], [-1]], [1]⟩ := by decide
  exact gradientmaps_fit_shapes _ _ _ _ _ _ _ _ h

/-- C2: with random_state fixed, two runs of GradientMaps fit on the same
matrix return identical gradients_ and lambdas_ whatever the ambient entropy
of each run, for every approach. -/
theorem gradientmaps_fit_deterministic (gm : GradientMaps) (kern : Mat → Mat)
    (eig : Vec → Mat → List (ℚ × Vec)) (sparsity : Option Nat) (dtime : Nat) (M : Mat)
    (s : Nat) (h : gm.random_state = Option.some s) (e1 e2 : Nat) :
    gm.fit kern eig sparsity dtime M e1 = gm.fit kern eig sparsity dtime M e2 := by
  simp only [GradientMaps.fit, h, Option.getD_some]

/-- Witness for C2 at a concrete seeded configuration and two distinct
ambient entropy values. -/
theorem gradientmaps_fit_deterministic_witness :
    (GradientMaps.mk 2 Approach.diffusionMap Kernel.normalizedAngle (Option.some 3)).fit
        (fun m => m) (fun _ _ => []) Option.none 0 [[1]] 5 =
      (GradientMaps.mk 2 Approach.diffusionMap Kernel.normalizedAngle (Option.some 3)).fit
        (fun m => m) (fun _ _ => []) Option.none 0 [[1]] 11 :=
  gradientmaps_fit_deterministic _ _ _ _ _ _ 3 rfl 5 11

/-- C9: transform fails with UnsupportedOperationError exactly on the two
spectral approaches, and succeeds exactly for the linear approach. -/
theorem gradientmaps_transform_unsupported (gm : GradientMaps) (r : GMResult) (X : Mat) :
    (gm.transform r X = Except.error Err.unsupportedOperation ↔ gm.approach ≠ Approach.linear) ∧
      ((∃ Y, gm.transform r X = Except.ok Y) ↔ gm.approach = Approach.linear) := by
  rcases gm with ⟨ng, ap, kl, rs⟩
  cases ap <;> simp [GradientMaps.transform]

/-- C10: the three approaches are selected by the short names pca, le and dm
used in the example script, and a GradientMaps instance is fully determined
by the four construction keywords n_gradients, approach, kernel and
random_state; fit results are read back from the gradients_ field. -/
theorem gradientmaps_config_surface :
    parseApproach "pca" = Option.some Approach.linear ∧
      parseApproach "le" = Option.some Approach.laplacianEigenmap ∧
      parseApproach "dm" = Option.some Approach.diffusionMap ∧
      list_embedding.map parseApproach = [Option.some Approach.linear,
        Option.some Approach.laplacianEigenmap, Option.some Approach.diffusionMap] ∧
      (∀ gm : GradientMaps,
        gm = GradientMaps.mk gm.n_gradients gm.approach gm.kernel gm.random_state) ∧
      (∀ g l, (GMResult.mk g l).gradients_ = g) := by
  refine ⟨rfl, rfl, rfl, rfl, ?_, ?_⟩
  · intro gm
    cases gm
    rfl
  · intro g l
    rfl

lemma sparsify_row (k : Nat) (K : Mat) (i : Nat) (hi : i < K.length) :
    (sparsifyCount k K).getD i [] = rowKeep k K[i] := by
  unfold sparsifyCount
  rw [getD_lt [] _ i (by simpa using hi), List.getElem_map]

lemma mget_sparsify_nonneg (k : Nat) (K : Mat) (hK : ∀ i j, 0 ≤ mget K i j) (i j : Nat) :
    0 ≤ mget (sparsifyCount k K) i j := by
  by_cases hi : i < K.length
  · show 0 ≤ ((sparsifyCount k K).getD i []).getD j 0
    rw [sparsify_row k K i hi]
    unfold rowKeep
    by_cases hj : j < (K[i]).length
    · rw [getD_lt 0 _ j (by simpa using hj), List.getElem_map]
      split
      · have hKij := hK i j
        simp only [mget] at hKij
        rw [getD_lt [] K i hi, getD_lt 0 (K[i]) j hj] at hKij
        exact hKij
      · exact le_refl 0
    · rw [getD_ge 0 _ j (by simpa using le_of_not_lt hj)]
  · show 0 ≤ ((sparsifyCount k K).getD i []).getD j 0
    rw [getD_ge [] _ i (by simpa [sparsifyCount] using le_of_not_lt hi)]
    simp

lemma mget_symmetrize_lt (n : Nat) (S : Mat) (i j : Nat) (hi : i < n) (hj : j < n) :
    mget (symmetrize n S) i j = (mget S i j + mget S j i) / 2 := by
  simp only [mget, symmetrize]
  rw [getD_map_range _ [] n i hi, getD_map_range _ 0 n j hj]

lemma mget_symmetrize_ge (n : Nat) (S : Mat) (i j : Nat) (h : n ≤ i ∨ n ≤ j) :
    mget (symmetrize n S) i j = 0 := by
  by_cases hi : i < n
  · have hj : n ≤ j := by
      rcases h with h | h
      · omega
      · exact h
    simp only [mget, symmetrize]
    rw [getD_map_range _ [] n i hi, getD_ge 0 _ j (by simpa using hj)]
  · simp only [mget, symmetrize]
    rw [getD_ge [] _ i (by simpa using le_of_not_lt hi)]
    simp

lemma symmetrize_rows (n : Nat) (S : Mat) : ∀ row ∈ symmetrize n S, row.length = n := by
  intro row hrow
  simp only [symmetrize, List.mem_map] at hrow
  obtain ⟨i, _, rfl⟩ := hrow
  simp

lemma exists_argmax : ∀ (r : Vec), r ≠ [] → ∃ j0, j0 < r.length ∧ ∀ y ∈ r, y ≤ r.getD j0 0 := by
  intro r
  induction r with
  | nil => intro h; exact absurd rfl h
  | cons x t ih =>
    intro _
    cases t with
    | nil =>
      refine ⟨0, by simp, ?_⟩
      intro y hy
      simp only [List.mem_singleton] at hy
      subst hy
      simp
    | cons z w =>
      obtain ⟨j0, hj0, hmax⟩ := ih (by simp)
      by_cases hx : x ≤ (z :: w).getD j0 0
      · refine ⟨j0 + 1, by simpa using Nat.succ_lt_succ hj0, ?_⟩
        intro y hy
        rw [List.getD_cons_succ]
        rcases List.mem_cons.mp hy with h | h
        · exact h ▸ hx
        · exact hmax y h
      · refine ⟨0, by simp, ?_⟩
        intro y hy
        rw [List.getD_cons_zero]
        rcases List.mem_cons.mp hy with h | h
        · exact le_of_eq h
        · exact le_trans (hmax y h) (le_of_not_le hx)

lemma rowKeep_max (k : Nat) (r : Vec) (j0 : Nat) (hj0 : j0 < r.length)
    (hmax : ∀ y ∈ r, y ≤ r.getD j0 0) (hk : 0 < k) :
    (rowKeep k r).getD j0 0 = r.getD j0 0 := by
  unfold rowKeep
  rw [getD_lt 0 _ j0 (by simpa using hj0), List.getElem_map]
  have hcount : r.countP (fun y => decide (r[j0] < y)) = 0 := by
    rw [List.countP_eq_zero]
    intro a ha
    have hle : a ≤ r.getD j0 0 := hmax a ha
    rw [getD_lt 0 r j0 hj0] at hle
    simpa using not_lt.mpr hle
  rw [getD_lt 0 r j0 hj0, hcount, if_pos hk]

lemma mget_nonneg_cases (M : Mat) (h : ∀ row ∈ M, ∀ x ∈ row, 0 ≤ x) : ∀ i j, 0 ≤ mget M i j := by
  intro i j
  by_cases hi : i < M.length
  · by_cases hj : j < (M[i]).length
    · simp only [mget]
      rw [getD_lt [] M i hi, getD_lt 0 _ j hj]
      exact h _ (List.getElem_mem hi) _ (List.getElem_mem hj)
    · simp only [mget]
      rw [getD_lt [] M i hi, getD_ge 0 _ j (le_of_not_lt hj)]
  · simp only [mget]
    rw [getD_ge [] M i (le_of_not_lt hi)]
    simp

/-- C4 (amended): the affinity built with a kernel step of non-negative
entries has the input shape and non-negative entries, and sparsification to
at least one neighbor keeps a nonzero entry in every row whose kernel row had
one. -/
theorem affinity_shape_nonneg_sparsity (kern : Mat → Mat) (kl : Kernel) (k : Nat) (M : Mat)
    (hK : ∀ i j, 0 ≤ mget (kernelStep kern kl M) i j) :
    (affinityMatrix kern kl (Option.some k) M).length = M.length ∧
      (∀ row ∈ affinityMatrix kern kl (Option.some k) M, row.length = M.length) ∧
      (∀ i j, 0 ≤ mget (affinityMatrix kern kl (Option.some k) M) i j) ∧
      ((kernelStep kern kl M).length = M.length →
        (∀ row ∈ kernelStep kern kl M, row.length = M.length) →
        1 ≤ k →
        ∀ i, i < M.length → (∃ j, j < M.length ∧ 0 < mget (kernelStep kern kl M) i j) →
        ∃ j, j < M.length ∧ 0 < mget (affinityMatrix kern kl (Option.some k) M) i j) := by
  have hunf : affinityMatrix kern kl (Option.some k) M
      = symmetrize M.length (sparsifyCount k (kernelStep kern kl M)) := rfl
  refine ⟨affinityMatrix_length _ _ _ _, ?_, ?_, ?_⟩
  · rw [hunf]
    exact symmetrize_rows _ _
  · intro i j
    by_cases hi : i < M.length
    · by_cases hj : j < M.length
      · rw [hunf, mget_symmetrize_lt _ _ i j hi hj]
        have h1 := mget_sparsify_nonneg k _ hK i j
        have h2 := mget_sparsify_nonneg k _ hK j i
        exact div_nonneg (add_nonneg h1 h2) (by norm_num)
      · rw [hunf, mget_symmetrize_ge _ _ i j (Or.inr (le_of_not_lt hj))]
    · rw [hunf, mget_symmetrize_ge _ _ i j (Or.inl (le_of_not_lt hi))]
  · intro hKlen hKrows hk i hi hex
    obtain ⟨j, hj, hpos⟩ := hex
    have hiK : i < (kernelStep kern kl M).length := by omega
    have hrlen : ((kernelStep kern kl M)[i]).length = M.length :=
      hKrows _ (List.getElem_mem hiK)
    simp only [mget] at hpos
    rw [getD_lt [] _ i hiK] at hpos
    have hne : (kernelStep kern kl M)[i] ≠ [] := by
      apply List.ne_nil_of_length_pos
      omega
    obtain ⟨j0, hj0, hmax⟩ := exists_argmax _ hne
    have hj0n : j0 < M.length := by omega
    have hposmax : 0 < ((kernelStep kern kl M)[i]).getD j0 0 := by
      by_cases hjlen : j < ((kernelStep kern kl M)[i]).length
      · have hmem : ((kernelStep kern kl M)[i]).getD j 0 ∈ (kernelStep kern kl M)[i] := by
          rw [getD_lt 0 _ j hjlen]
          exact List.getElem_mem hjlen
        exact lt_of_lt_of_le hpos (hmax _ hmem)
      · rw [getD_ge 0 _ j (le_of_not_lt hjlen)] at hpos
        exact absurd hpos (lt_irrefl 0)
    have hSval : mget (sparsifyCount k (kernelStep kern kl M)) i j0
        = ((kernelStep kern kl M)[i]).getD j0 0 := by
      simp only [mget]
      rw [sparsify_row k _ i hiK]
      exact rowKeep_max k _ j0 hj0 hmax hk
    refine ⟨j0, hj0n, ?_⟩
    rw [hunf, mget_symmetrize_lt _ _ i j0 hi hj0n]
    have h2 := mget_sparsify_nonneg k _ hK j0 i
    rw [hSval] at *
    exact div_pos (add_pos_of_pos_of_nonneg hposmax h2) (by norm_num)

/-- Witness for C4 (amended) on a concrete positive 2-by-2 matrix with one
retained neighbor per row. -/
theorem affinity_shape_nonneg_sparsity_witness :
    (affinityMatrix (fun m => m) Kernel.none (Option.some 1) [[1, 2], [2, 1]]).length = 2 ∧
      (∃ j, j < 2 ∧
        0 < mget (affinityMatrix (fun m => m) Kernel.none (Option.some 1) [[1, 2], [2, 1]]) 0 j) := by
  have hK : ∀ i j, 0 ≤ mget (kernelStep (fun m => m) Kernel.none [[1, 2], [2, 1]]) i j :=
    mget_nonneg_cases _ (by decide)
  obtain ⟨h1, _, _, h4⟩ := affinity_shape_nonneg_sparsity (fun m => m) Kernel.none 1
    [[1, 2], [2, 1]] hK
  exact ⟨h1, h4 (by decide) (by decide) (by decide) 0 (by decide) ⟨1, by decide, by decide⟩⟩

lemma getD_zero_pair (j : Nat) : ([(0 : ℚ), 0]).getD j 0 = 0 := by
  cases j with
  | zero => rfl
  | succ m =>
    cases m with
    | zero => rfl
    | succ p => rfl

lemma mget_zero22 (i j : Nat) : mget ([[0, 0], [0, 0]] : Mat) i j = 0 := by
  cases i with
  | zero => exact getD_zero_pair j
  | succ m =>
    cases m with
    | zero => exact getD_zero_pair j
    | succ p => rfl

lemma mget_sparsify_zero (k : Nat) (K : Mat) (hK : ∀ i j, mget K i j = 0) (i j : Nat) :
    mget (sparsifyCount k K) i j = 0 := by
  by_cases hi : i < K.length
  · show ((sparsifyCount k K).getD i []).getD j 0 = 0
    rw [sparsify_row k K i hi]
    unfold rowKeep
    by_cases hj : j < (K[i]).length
    · rw [getD_lt 0 _ j (by simpa using hj), List.getElem_map]
      have hKij := hK i j
      simp only [mget] at hKij
      rw [getD_lt [] K i hi, getD_lt 0 (K[i]) j hj] at hKij
      rw [hKij]
      split <;> rfl
    · rw [getD_ge 0 _ j (by simpa using le_of_not_lt hj)]
  · show ((sparsifyCount k K).getD i []).getD j 0 = 0
    rw [getD_ge [] _ i (by simpa [sparsifyCount] using le_of_not_lt hi)]
    simp

/-- Counterexample for C4: the all-zero matrix is a valid (square,
non-negative, finite) input, yet after sparsification no row retains a
nonzero entry, refuting the unconditional at-least-one-nonzero-per-row
claim. -/
theorem affinity_row_nonzero_counterexample :
    isSquare ([[0, 0], [0, 0]] : Mat) = true ∧
      (∀ i j, 0 ≤ mget ([[0, 0], [0, 0]] : Mat) i j) ∧
      ¬ (∀ i, i < 2 → ∃ j, j < 2 ∧
          0 < mget (affinityMatrix (fun m => m) Kernel.none (Option.some 1) [[0, 0], [0, 0]]) i j) := by
  refine ⟨by decide, ?_, ?_⟩
  · intro i j
    rw [mget_zero22]
  · intro hcl
    obtain ⟨j, hj2, hpos⟩ := hcl 0 (by norm_num)
    have hSz : ∀ a b, mget (sparsifyCount 1 (kernelStep (fun m => m) Kernel.none
        [[0, 0], [0, 0]])) a b = 0 :=
      mget_sparsify_zero 1 _ (fun a b => mget_zero22 a b)
    have hunf : affinityMatrix (fun m => m) Kernel.none (Option.some 1) [[0, 0], [0, 0]]
        = symmetrize 2 (sparsifyCount 1 (kernelStep (fun m => m) Kernel.none [[0, 0], [0, 0]])) :=
      rfl
    have hA0 : mget (affinityMatrix (fun m => m) Kernel.none (Option.some 1) [[0, 0], [0, 0]]) 0 j
        = 0 := by
      rw [hunf, mget_symmetrize_lt 2 _ 0 j (by norm_num) hj2, hSz, hSz]
      norm_num
    rw [hA0] at hpos
    exact absurd hpos (lt_irrefl 0)

lemma sortAsc_pairwise (l : List (ℚ × Vec)) : List.Pairwise pairLE (sortAsc l) :=
  List.sorted_insertionSort pairLE l

lemma sortAsc_perm (l : List (ℚ × Vec)) : (sortAsc l).Perm l :=
  List.perm_insertionSort pairLE l

lemma sortDesc_pairwise (l : List (ℚ × Vec)) : List.Pairwise pairGE (sortDesc l) :=
  List.sorted_insertionSort pairGE l

lemma sortDesc_perm (l : List (ℚ × Vec)) : (sortDesc l).Perm l :=
  List.perm_insertionSort pairGE l

lemma sortAsc_drop_pos (pairs : List (ℚ × Vec))
    (hcount : pairs.countP (fun p => decide (p.1 ≤ 0)) = 1) :
    ∀ p ∈ (sortAsc pairs).drop 1, 0 < p.1 := by
  have hperm := sortAsc_perm pairs
  have hsorted := sortAsc_pairwise pairs
  have hcount2 : (sortAsc pairs).countP (fun p => decide (p.1 ≤ 0)) = 1 := by
    rw [hperm.countP_eq]
    exact hcount
  cases hs : sortAsc pairs with
  | nil => intro p hp; simp at hp
  | cons h t =>
    rw [hs] at hsorted hcount2
    intro p hp
    have hp' : p ∈ t := by simpa using hp
    by_contra hneg
    push_neg at hneg
    have hh : pairLE h p := (List.pairwise_cons.mp hsorted).1 p hp'
    have hcp : 0 < t.countP (fun q => decide (q.1 ≤ 0)) := by
      rw [List.countP_pos_iff]
      exact ⟨p, hp', by simpa using hneg⟩
    have hch : decide (h.1 ≤ 0) = true := by
      simpa using le_trans hh hneg
    rw [List.countP_cons] at hcount2
    simp only [hch, if_true] at hcount2
    omega

lemma sortDesc_drop_lt_one (pairs : List (ℚ × Vec))
    (hcount : pairs.countP (fun p => decide (1 ≤ p.1)) = 1) :
    ∀ p ∈ (sortDesc pairs).drop 1, p.1 < 1 := by
  have hperm := sortDesc_perm pairs
  have hsorted := sortDesc_pairwise pairs
  have hcount2 : (sortDesc pairs).countP (fun p => decide (1 ≤ p.1)) = 1 := by
    rw [hperm.countP_eq]
    exact hcount
  cases hs : sortDesc pairs with
  | nil => intro p hp; simp at hp
  | cons h t =>
    rw [hs] at hsorted hcount2
    intro p hp
    have hp' : p ∈ t := by simpa using hp
    by_contra hneg
    push_neg at hneg
    have hh : pairGE h p := (List.pairwise_cons.mp hsorted).1 p hp'
    have hcp : 0 < t.countP (fun q => decide (1 ≤ q.1)) := by
      rw [List.countP_pos_iff]
      exact ⟨p, hp', by simpa using hneg⟩
    have hch : decide (1 ≤ h.1) = true := by
      simpa using le_trans hneg hh
    rw [List.countP_cons] at hcount2
    simp only [hch, if_true] at hcount2
    omega

lemma colAt_componentMatrix (n : Nat) (kept : List (ℚ × Vec)) (j : Nat) (hj : j < kept.length)
    (hlen : (kept.get ⟨j, hj⟩).2.length = n) :
    colAt (componentMatrix n kept) j = (kept.get ⟨j, hj⟩).2 := by
  unfold colAt componentMatrix
  rw [List.map_map]
  have hstep : (List.range n).map ((fun row : Vec => row.getD j 0)
        ∘ (fun i => kept.map (fun p => vget p.2 i)))
      = (List.range n).map (fun i => vget (kept.get ⟨j, hj⟩).2 i) := by
    apply List.map_congr_left
    intro i _
    simp only [Function.comp]
    rw [getD_lt 0 _ j (by simpa using hj), List.getElem_map]
    rfl
  rw [hstep, map_range_vget _ n hlen]

lemma le_order_exclusion (eig : Vec → Mat → List (ℚ × Vec)) (k s : Nat) (A : Mat) (r : GMResult)
    (h : leFit eig k s A = Except.ok r) :
    List.Pairwise (· ≤ ·) r.lambdas_ ∧
      ((eig (randVec A.length s) (laplacian A)).countP (fun p => decide (p.1 ≤ 0)) = 1 →
        (∀ p ∈ eig (randVec A.length s) (laplacian A), ∀ c : ℚ, c ≠ 0 →
          p.2 = List.replicate A.length c → p.1 = 0) →
        (∀ x ∈ r.lambdas_, 0 < x) ∧ (0 : ℚ) ∉ r.lambdas_ ∧
        ((∀ p ∈ eig (randVec A.length s) (laplacian A), p.2.length = A.length) →
          ∀ j, j < k → colAt r.gradients_ j ≠ onesVec A.length)) := by
  simp only [leFit] at h
  set pairs := eig (randVec A.length s) (laplacian A) with hp0
  split at h
  case isTrue hk =>
    set kept := ((sortAsc pairs).drop 1).take k with hk0
    simp only [Except.ok.injEq] at h
    have hg : r.gradients_ = componentMatrix A.length kept := by rw [← h]
    have hl : r.lambdas_ = kept.map (fun p => p.1) := by rw [← h]
    have hsub : kept.Sublist (sortAsc pairs) :=
      (List.take_sublist _ _).trans (List.drop_sublist _ _)
    constructor
    · rw [hl]
      exact List.pairwise_map.mpr (List.Pairwise.sublist hsub (sortAsc_pairwise _))
    · intro hcount hones
      have hkept : ∀ p ∈ kept, 0 < p.1 := fun p hp =>
        sortAsc_drop_pos pairs hcount p (List.take_subset _ _ hp)
      have hmemp : ∀ p ∈ kept, p ∈ pairs := fun p hp =>
        (sortAsc_perm pairs).subset (List.drop_subset _ _ (List.take_subset _ _ hp))
      refine ⟨?_, ?_, ?_⟩
      · intro x hx
        rw [hl, List.mem_map] at hx
        obtain ⟨p, hp, hpe⟩ := hx
        exact hpe ▸ hkept p hp
      · intro h0
        rw [hl, List.mem_map] at h0
        obtain ⟨p, hp, hpe⟩ := h0
        exact absurd (hpe ▸ hkept p hp) (lt_irrefl 0)
      · intro hlen j hj
        have hjk : j < kept.length := by
          rw [hk0]
          simp only [List.length_take, List.length_drop]
          omega
        have hmem : kept.get ⟨j, hjk⟩ ∈ kept := List.get_mem kept j hjk
        have hvlen : (kept.get ⟨j, hjk⟩).2.length = A.length := hlen _ (hmemp _ hmem)
        rw [hg, colAt_componentMatrix A.length kept j hjk hvlen]
        intro heq
        have h0 := hones _ (hmemp _ hmem) 1 one_ne_zero (by simpa [onesVec] using heq)
        exact absurd h0 (ne_of_gt (hkept _ hmem))
  case isFalse => exact absurd h (by simp)

lemma dm_order_exclusion (eig : Vec → Mat → List (ℚ × Vec)) (k dtime s : Nat) (A : Mat)
    (r : GMResult) (h : dmFit eig k dtime s A = Except.ok r) :
    List.Pairwise (fun a b : ℚ => b ≤ a) r.lambdas_ ∧
      ((eig (randVec A.length s) (transition A)).countP (fun p => decide (1 ≤ p.1)) = 1 →
        (∀ p ∈ eig (randVec A.length s) (transition A), ∀ c : ℚ, c ≠ 0 →
          p.2 = List.replicate A.length c → p.1 = 1) →
        (∀ x ∈ r.lambdas_, x < 1) ∧ (1 : ℚ) ∉ r.lambdas_ ∧
        ((∀ p ∈ eig (randVec A.length s) (transition A), p.2.length = A.length) →
          ∀ j, j < k → colAt r.gradients_ j ≠ onesVec A.length)) := by
  simp only [dmFit] at h
  set pairs := eig (randVec A.length s) (transition A) with hp0
  split at h
  case isTrue hk =>
    set kept := ((sortDesc pairs).drop 1).take k with hk0
    simp only [Except.ok.injEq] at h
    have hg : r.gradients_
        = componentMatrix A.length (kept.map (fun p => (p.1, scaleVec (p.1 ^ dtime) p.2))) := by
      rw [← h]
    have hl : r.lambdas_ = kept.map (fun p => p.1) := by rw [← h]
    have hsub : kept.Sublist (sortDesc pairs) :=
      (List.take_sublist _ _).trans (List.drop_sublist _ _)
    constructor
    · rw [hl]
      exact List.pairwise_map.mpr (List.Pairwise.sublist hsub (sortDesc_pairwise _))
    · intro hcount hones
      have hkept : ∀ p ∈ kept, p.1 < 1 := fun p hp =>
        sortDesc_drop_lt_one pairs hcount p (List.take_subset _ _ hp)
      have hmemp : ∀ p ∈ kept, p ∈ pairs := fun p hp =>
        (sortDesc_perm pairs).subset (List.drop_subset _ _ (List.take_subset _ _ hp))
      refine ⟨?_, ?_, ?_⟩
      · intro x hx
        rw [hl, List.mem_map] at hx
        obtain ⟨p, hp, hpe⟩ := hx
        exact hpe ▸ hkept p hp
      · intro h1
        rw [hl, List.mem_map] at h1
        obtain ⟨p, hp, hpe⟩ := h1
        exact absurd (hpe ▸ hkept p hp) (lt_irrefl 1)
      · intro hlen j hj
        have hjk : j < kept.length := by
          rw [hk0]
          simp only [List.length_take, List.length_drop]
          omega
        have hmem : kept.get ⟨j, hjk⟩ ∈ kept := List.get_mem kept j hjk
        have hvlen : (kept.get ⟨j, hjk⟩).2.length = A.length := hlen _ (hmemp _ hmem)
        have hjk2 : j < (kept.map (fun p => (p.1, scaleVec (p.1 ^ dtime) p.2))).length := by
          simpa using hjk
        have hget : (kept.map (fun p => (p.1, scaleVec (p.1 ^ dtime) p.2))).get ⟨j, hjk2⟩
            = ((kept.get ⟨j, hjk⟩).1,
               scaleVec ((kept.get ⟨j, hjk⟩).1 ^ dtime) (kept.get ⟨j, hjk⟩).2) := by
          simp [List.get_eq_getElem, List.getElem_map]
        have hvlen2 : ((kept.map (fun p => (p.1, scaleVec (p.1 ^ dtime) p.2))).get
            ⟨j, hjk2⟩).2.length = A.length := by
          rw [hget]
          simpa [scaleVec] using hvlen
        rw [hg, colAt_componentMatrix A.length _ j hjk2 hvlen2, hget]
        intro heq
        simp only [onesVec] at heq
        have hall := (List.eq_replicate_iff.mp heq).2
        have hallv : ∀ x ∈ (kept.get ⟨j, hjk⟩).2,
            (kept.get ⟨j, hjk⟩).1 ^ dtime * x = 1 := by
          intro x hx
          exact hall _ (List.mem_map_of_mem _ hx)
        by_cases hv : (kept.get ⟨j, hjk⟩).2 = []
        · have hn : A.length = 0 := by
            rw [hv] at hvlen
            simpa using hvlen.symm
          have h1 := hones _ (hmemp _ hmem) 1 one_ne_zero (by rw [hv, hn]; rfl)
          exact absurd h1 (ne_of_lt (hkept _ hmem))
        · obtain ⟨x, hx⟩ := List.exists_mem_of_ne_nil _ hv
          have hx1 := hallv x hx
          have hlam : (kept.get ⟨j, hjk⟩).1 ^ dtime ≠ 0 := left_ne_zero_of_mul_eq_one hx1
          have hveq : (kept.get ⟨j, hjk⟩).2
              = List.replicate A.length (((kept.get ⟨j, hjk⟩).1 ^ dtime)⁻¹) := by
            rw [List.eq_replicate_iff]
            refine ⟨hvlen, ?_⟩
            intro y hy
            have hy1 := hallv y hy
            exact mul_left_cancel₀ hlam (by rw [hy1, mul_inv_cancel₀ hlam])
          have h1 := hones _ (hmemp _ hmem) _ (inv_ne_zero hlam) hveq
          exact absurd h1 (ne_of_lt (hkept _ hmem))
  case isFalse => exact absurd h (by simp)

/-- C3 (amended): for the Laplacian eigenmap the returned importances are
monotonically non-decreasing, while for the diffusion map they are
monotonically non-increasing (descending eigenvalue order); in both cases,
when the solver returns exactly one trivial eigenvalue and constant
eigenvectors occur only at the trivial eigenvalue, the trivial all-ones
component is never among the returned importances or columns. -/
theorem spectral_order_trivial_excluded :
    (∀ (eig : Vec → Mat → List (ℚ × Vec)) (k s : Nat) (A : Mat) (r : GMResult),
      leFit eig k s A = Except.ok r →
      List.Pairwise (· ≤ ·) r.lambdas_ ∧
        ((eig (randVec A.length s) (laplacian A)).countP (fun p => decide (p.1 ≤ 0)) = 1 →
          (∀ p ∈ eig (randVec A.length s) (laplacian A), ∀ c : ℚ, c ≠ 0 →
            p.2 = List.replicate A.length c → p.1 = 0) →
          (∀ x ∈ r.lambdas_, 0 < x) ∧ (0 : ℚ) ∉ r.lambdas_ ∧
          ((∀ p ∈ eig (randVec A.length s) (laplacian A), p.2.length = A.length) →
            ∀ j, j < k → colAt r.gradients_ j ≠ onesVec A.length))) ∧
    (∀ (eig : Vec → Mat → List (ℚ × Vec)) (k dtime s : Nat) (A : Mat) (r : GMResult),
      dmFit eig k dtime s A = Except.ok r →
      List.Pairwise (fun a b : ℚ => b ≤ a) r.lambdas_ ∧
        ((eig (randVec A.length s) (transition A)).countP (fun p => decide (1 ≤ p.1)) = 1 →
          (∀ p ∈ eig (randVec A.length s) (transition A), ∀ c : ℚ, c ≠ 0 →
            p.2 = List.replicate A.length c → p.1 = 1) →
          (∀ x ∈ r.lambdas_, x < 1) ∧ (1 : ℚ) ∉ r.lambdas_ ∧
          ((∀ p ∈ eig (randVec A.length s) (transition A), p.2.length = A.length) →
            ∀ j, j < k → colAt r.gradients_ j ≠ onesVec A.length))) :=
  ⟨fun eig k s A r h => le_order_exclusion eig k s A r h,
   fun eig k dtime s A r h => dm_order_exclusion eig k dtime s A r h⟩

/-- Counterexample for C3: a diffusion map fit on the 3-vertex path graph
with genuine transition eigenvalues 1, 0, -1 returns importances [0, -1],
which are not monotonically non-decreasing. -/
theorem dm_lambdas_decreasing_counterexample :
    (dmFit (fun _ _ => [(1, [1, 1, 1]), (0, [1, 0, -1]), (-1, [1, -1, 1])]) 2 0 0
        [[0, 1, 0], [1, 0, 1], [0, 1, 0]]).map GMResult.lambdas_ = Except.ok [0, -1] ∧
      ¬ List.Pairwise (· ≤ ·) ([(0 : ℚ), -1] : Vec) := by
  constructor
  · decide
  · intro hp
    have h1 := (List.pairwise_cons.mp hp).1 (-1) (by simp)
    norm_num at h1

/-- Witness for C3 (amended): concrete Laplacian eigenmap and diffusion map
fits with explicit rational spectra, discharging every spectral hypothesis. -/
theorem spectral_order_trivial_excluded_witness :
    List.Pairwise (· ≤ ·) ([(1 : ℚ)] : Vec) ∧ (0 : ℚ) ∉ ([(1 : ℚ)] : Vec) ∧
      colAt ([[(1 : ℚ)], [-1]] : Mat) 0 ≠ onesVec 2 ∧
      List.Pairwise (fun a b : ℚ => b ≤ a) ([(0 : ℚ), -1] : Vec) ∧
      (1 : ℚ) ∉ ([(0 : ℚ), -1] : Vec) := by
  have hokL : leFit (fun _ _ => [(0, [1, 1]), (1, [1, -1])]) 1 0 [[1, 1], [1, 1]]
      = Except.ok ⟨[[1], [-1]], [1]⟩ := by decide
  have honesL : ∀ p ∈ [((0 : ℚ), ([1, 1] : Vec)), (1, [1, -1])], ∀ c : ℚ, c ≠ 0 →
      p.2 = List.replicate 2 c → p.1 = 0 := by
    intro p hp c _ heq
    simp only [List.mem_cons, List.not_mem_nil, or_false] at hp
    rcases hp with rfl | rfl
    · rfl
    · exfalso
      have heq2 : ([1, -1] : Vec) = [c, c] := heq
      injection heq2 with ha hb
      injection hb with hb1
      rw [← ha] at hb1
      norm_num at hb1
  obtain ⟨hpairL, himpL⟩ := spectral_order_trivial_excluded.1
    (fun _ _ => [(0, [1, 1]), (1, [1, -1])]) 1 0 [[1, 1], [1, 1]] ⟨[[1], [-1]], [1]⟩ hokL
  obtain ⟨_, hnmL, hcolL⟩ := himpL (by decide) honesL
  have hokD : dmFit (fun _ _ => [(1, [1, 1, 1]), (0, [1, 0, -1]), (-1, [1, -1, 1])]) 2 0 0
      [[0, 1, 0], [1, 0, 1], [0, 1, 0]]
      = Except.ok ⟨componentMatrix 3 [((0 : ℚ), scaleVec ((0 : ℚ) ^ 0) [1, 0, -1]),
          ((-1 : ℚ), scaleVec ((-1 : ℚ) ^ 0) [1, -1, 1])], [0, -1]⟩ := rfl
  have honesD : ∀ p ∈ [((1 : ℚ), ([1, 1, 1] : Vec)), (0, [1, 0, -1]), (-1, [1, -1, 1])],
      ∀ c : ℚ, c ≠ 0 → p.2 = List.replicate 3 c → p.1 = 1 := by
    intro p hp c _ heq
    simp only [List.mem_cons, List.not_mem_nil, or_false] at hp
    rcases hp with rfl | rfl | rfl
    · rfl
    · exfalso
      have heq2 : ([1, 0, -1] : Vec) = [c, c, c] := heq
      injection heq2 with ha hb
      injection hb with hb1
      rw [← ha] at hb1
      norm_num at hb1
    · exfalso
      have heq2 : ([1, -1, 1] : Vec) = [c, c, c] := heq
      injection heq2 with ha hb
      injection hb with hb1
      rw [← ha] at hb1
      norm_num at hb1
  obtain ⟨hpairD, himpD⟩ := spectral_order_trivial_excluded.2
    (fun _ _ => [(1, [1, 1, 1]), (0, [1, 0, -1]), (-1, [1, -1, 1])]) 2 0 0
    [[0, 1, 0], [1, 0, 1], [0, 1, 0]]
    ⟨componentMatrix 3 [((0 : ℚ), scaleVec ((0 : ℚ) ^ 0) [1, 0, -1]),
      ((-1 : ℚ), scaleVec ((-1 : ℚ) ^ 0) [1, -1, 1])], [0, -1]⟩ hokD
  obtain ⟨_, hnmD, _⟩ := himpD (by decide) honesD
  exact ⟨hpairL, hnmL, hcolL (by decide) 0 (by norm_num), hpairD, hnmD⟩

lemma argminIdx_lt : ∀ (l : List ℚ), l ≠ [] → argminIdx l < l.length := by
  intro l
  induction l with
  | nil => intro h; exact absurd rfl h
  | cons x xs ih =>
    intro _
    cases xs with
    | nil => simp [argminIdx]
    | cons y t =>
      simp only [argminIdx]
      split
      · simp
      · have := ih (by simp)
        simp only [List.length_cons] at this
        simp only [List.length_cons]
        omega

lemma assignIdx_lt (Rm : RotM) (pts : List P3) (i : Nat) (hp : 0 < pts.length) :
    assignIdx Rm pts i < pts.length := by
  have hne : ((pts.map (rotApply Rm)).map (sqDist (pts.getD i (0, 0, 0)))) ≠ [] := by
    apply List.ne_nil_of_length_pos
    simp only [List.length_map]
    omega
  have h3 := argminIdx_lt _ hne
  simp only [List.length_map] at h3
  simpa [assignIdx, nnIndex] using h3

/-- C5 (amended): a successful spin randomization returns a vector of the
same length as the sphere, whose NaN positions are exactly the preimage of
the input NaN positions under the nearest-rotated-neighbor assignment map
(NaNs are carried, never filled, but in general move to new positions). -/
theorem spin_randomize_nan_preimage (Rm : RotM) (pts : List P3) (data : List (Option ℚ))
    (out : List (Option ℚ)) (h : randomizeHemi Rm pts data = Except.ok out) :
    out.length = pts.length ∧
      ∀ i, i < pts.length →
        (out.getD i (Option.some 0) = Option.none ↔
          data.getD (assignIdx Rm pts i) (Option.some 0) = Option.none) := by
  simp only [randomizeHemi] at h
  split at h
  case isTrue hlen =>
    simp only [Except.ok.injEq] at h
    subst h
    constructor
    · simp
    · intro i hi
      rw [getD_map_range _ _ _ i hi]
      have hb : assignIdx Rm pts i < data.length := by
        rw [hlen]
        exact assignIdx_lt Rm pts i (by omega)
      rw [getD_lt _ data _ hb, getD_lt _ data _ hb]
  case isFalse => exact absurd h (by simp)

/-- Witness for C5 (amended) at a concrete rotation and data vector with one
missing entry. -/
theorem spin_randomize_nan_preimage_witness :
    ([Option.some (1 : ℚ), Option.none].length = ([((1 : ℚ), 0, 0), (0, 1, 0)] : List P3).length)
      ∧ (([Option.some (1 : ℚ), Option.none].getD 1 (Option.some 0) = Option.none) ↔
          ([Option.none, Option.some (1 : ℚ)].getD
            (assignIdx !![-1, 0, 0; 0, -1, 0; 0, 0, 1] [((1 : ℚ), 0, 0), (0, 1, 0)] 1)
            (Option.some 0) = Option.none)) := by
  have ha1 : assignIdx !![-1, 0, 0; 0, -1, 0; 0, 0, 1] [((1 : ℚ), 0, 0), (0, 1, 0)] 1 = 0 := by
    norm_num [assignIdx, nnIndex, argminIdx, sqDist, rotApply, Matrix.vecHead, Matrix.vecTail]
  have hout : randomizeHemi !![-1, 0, 0; 0, -1, 0; 0, 0, 1] [((1 : ℚ), 0, 0), (0, 1, 0)]
      [Option.none, Option.some 1] = Except.ok [Option.some 1, Option.none] := by
    have ha0 : assignIdx !![-1, 0, 0; 0, -1, 0; 0, 0, 1] [((1 : ℚ), 0, 0), (0, 1, 0)] 0 = 1 := by
      norm_num [assignIdx, nnIndex, argminIdx, sqDist, rotApply, Matrix.vecHead, Matrix.vecTail]
    simp only [randomizeHemi, List.length_cons, List.length_nil, if_pos]
    rw [show List.range 2 = [0, 1] from rfl]
    simp only [List.map_cons, List.map_nil, ha0, ha1]
    rfl
  have h := spin_randomize_nan_preimage _ _ _ _ hout
  exact ⟨h.1, h.2 1 (by norm_num)⟩

/-- Counterexample for C5: with a half-turn rotation of a two-point sphere,
the input NaN at position 0 appears at position 1 of the output, so the
output NaN positions are not the input NaN positions. -/
theorem spin_nan_moves_counterexample :
    randomizeHemi !![-1, 0, 0; 0, -1, 0; 0, 0, 1] [((1 : ℚ), 0, 0), (0, 1, 0)]
        [Option.none, Option.some 1] = Except.ok [Option.some 1, Option.none] ∧
      ([Option.some (1 : ℚ), Option.none].getD 1 (Option.some 0) = Option.none) ∧
      ([Option.none, Option.some (1 : ℚ)].getD 1 (Option.some 0) ≠ Option.none) := by
  refine ⟨?_, rfl, by decide⟩
  have ha0 : assignIdx !![-1, 0, 0; 0, -1, 0; 0, 0, 1] [((1 : ℚ), 0, 0), (0, 1, 0)] 0 = 1 := by
    norm_num [assignIdx, nnIndex, argminIdx, sqDist, rotApply, Matrix.vecHead, Matrix.vecTail]
  have ha1 : assignIdx !![-1, 0, 0; 0, -1, 0; 0, 0, 1] [((1 : ℚ), 0, 0), (0, 1, 0)] 1 = 0 := by
    norm_num [assignIdx, nnIndex, argminIdx, sqDist, rotApply, Matrix.vecHead, Matrix.vecTail]
  simp only [randomizeHemi, List.length_cons, List.length_nil, if_pos]
  rw [show List.range 2 = [0, 1] from rfl]
  simp only [List.map_cons, List.map_nil, ha0, ha1]
  rfl

/-- C7: randomizing the constant all-ones field on both hemispheres returns
the constant field unchanged in every repetition, for every fitted set of
rotations and every pair of spheres. -/
theorem spin_randomize_constant (sp : SpinPermutations) (ptsL ptsR : List P3) :
    ∀ pr ∈ sp.randomize ptsL ptsR (List.replicate ptsL.length (Option.some 1))
        (List.replicate ptsR.length (Option.some 1)),
      pr.1 = Except.ok (List.replicate ptsL.length (Option.some 1)) ∧
        pr.2 = Except.ok (List.replicate ptsR.length (Option.some 1)) := by
  have key : ∀ (Rm : RotM) (pts : List P3),
      randomizeHemi Rm pts (List.replicate pts.length (Option.some 1))
        = Except.ok (List.replicate pts.length (Option.some 1)) := by
    intro Rm pts
    simp only [randomizeHemi]
    rw [if_pos (List.length_replicate _ _)]
    congr 1
    apply List.ext_getElem
    · simp
    · intro i h1 h2
      simp only [List.getElem_map, List.getElem_range]
      have hi : i < pts.length := by simpa using h1
      have hb : assignIdx Rm pts i < pts.length := assignIdx_lt Rm pts i (by omega)
      rw [getD_replicate _ _ _ _ hb, List.getElem_replicate]
  intro pr hpr
  simp only [SpinPermutations.randomize, List.mem_map] at hpr
  obtain ⟨Rm, _, rfl⟩ := hpr
  exact ⟨key Rm ptsL, key _ ptsR⟩

/-- Witness for C7 on concrete spheres and a fitted instance with five
identity rotations. -/
theorem spin_randomize_constant_witness :
    randomizeHemi 1 [((1 : ℚ), 0, 0), (0, 1, 0)] (List.replicate 2 (Option.some 1))
        = Except.ok (List.replicate 2 (Option.some 1)) ∧
      randomizeHemi (reflXMat * 1 * reflXMat) [((0 : ℚ), 0, 1)] (List.replicate 1 (Option.some 1))
        = Except.ok (List.replicate 1 (Option.some 1)) := by
  have h := spin_randomize_constant ⟨5, Option.some 0, [1, 1, 1, 1, 1]⟩
    [((1 : ℚ), 0, 0), (0, 1, 0)] [((0 : ℚ), 0, 1)]
  have hm : (randomizeHemi 1 [((1 : ℚ), 0, 0), (0, 1, 0)] (List.replicate 2 (Option.some 1)),
      randomizeHemi (reflXMat * 1 * reflXMat) [((0 : ℚ), 0, 1)]
        (List.replicate 1 (Option.some 1)))
      ∈ SpinPermutations.randomize ⟨5, Option.some 0, [1, 1, 1, 1, 1]⟩
        [((1 : ℚ), 0, 0), (0, 1, 0)] [((0 : ℚ), 0, 1)]
        (List.replicate ([((1 : ℚ), 0, 0), (0, 1, 0)] : List P3).length (Option.some 1))
        (List.replicate ([((0 : ℚ), 0, 1)] : List P3).length (Option.some 1)) := by
    exact List.mem_map_of_mem _ (List.mem_cons_self 1 _)
  exact h _ hm

lemma qsign_of_neg (x : ℚ) (hx : x < 0) : qsign x = -1 := by
  simp [qsign, hx]

lemma qsign_of_pos (x : ℚ) (hx : 0 < x) : qsign x = 1 := by
  simp [qsign, not_lt.mpr hx.le, hx.ne']

lemma qsign_zero : qsign 0 = 0 := by
  simp [qsign]

lemma qsign_mul (a b : ℚ) : qsign (a * b) = qsign a * qsign b := by
  rcases lt_trichotomy a 0 with ha | ha | ha <;> rcases lt_trichotomy b 0 with hb | hb | hb
  · rw [qsign_of_neg _ ha, qsign_of_neg _ hb, qsign_of_pos _ (mul_pos_of_neg_of_neg ha hb)]
    norm_num
  · rw [hb, mul_zero, qsign_zero]
    ring
  · rw [qsign_of_neg _ ha, qsign_of_pos _ hb, qsign_of_neg _ (mul_neg_of_neg_of_pos ha hb)]
    norm_num
  · rw [ha, zero_mul, qsign_zero]
    ring
  · rw [ha, zero_mul, qsign_zero]
    ring
  · rw [ha, zero_mul, qsign_zero]
    ring
  · rw [qsign_of_pos _ ha, qsign_of_neg _ hb, qsign_of_neg _ (mul_neg_of_pos_of_neg ha hb)]
    norm_num
  · rw [hb, mul_zero, qsign_zero]
    ring
  · rw [qsign_of_pos _ ha, qsign_of_pos _ hb, qsign_of_pos _ (mul_pos ha hb)]
    norm_num

lemma qsign_sq (x : ℚ) (hx : x ≠ 0) : qsign x * qsign x = 1 := by
  rcases hx.lt_or_lt with h | h
  · rw [qsign_of_neg _ h]
    norm_num
  · rw [qsign_of_pos _ h]
    norm_num

lemma det_upperTri (R : RotM) (h : upperTri R) : R.det = R 0 0 * R 1 1 * R 2 2 := by
  rw [Matrix.det_fin_three]
  have h10 : R 1 0 = 0 := h 1 0 (by decide)
  have h20 : R 2 0 = 0 := h 2 0 (by decide)
  have h21 : R 2 1 = 0 := h 2 1 (by decide)
  rw [h10, h20, h21]
  ring

/-- C6 (amended): the rotation drawn from a QR factorization with sign
correction is orthogonal, and its determinant equals the sign of the
determinant of the gaussian draw — hence +1 or -1, but not always +1. -/
theorem spin_rotation_orthogonal_det (G Q R : RotM) (hQR : G = Q * R)
    (hQ : Matrix.transpose Q * Q = 1) (hR : upperTri R) (hG : G.det ≠ 0) :
    Matrix.transpose (drawRotation Q R) * drawRotation Q R = 1 ∧
      (drawRotation Q R).det = qsign G.det ∧
      ((drawRotation Q R).det = 1 ∨ (drawRotation Q R).det = -1) := by
  have hdetR : R.det = R 0 0 * R 1 1 * R 2 2 := det_upperTri R hR
  have hdetG : G.det = Q.det * (R 0 0 * R 1 1 * R 2 2) := by
    rw [hQR, Matrix.det_mul, hdetR]
  have hQdet2 : Q.det * Q.det = 1 := by
    have h1 : (Matrix.transpose Q * Q).det = 1 := by rw [hQ, Matrix.det_one]
    rwa [Matrix.det_mul, Matrix.det_transpose] at h1
  have hQpm : Q.det = 1 ∨ Q.det = -1 := mul_self_eq_one_iff.mp hQdet2
  have hprod : R 0 0 * R 1 1 * R 2 2 ≠ 0 := by
    intro h0
    rw [hdetG, h0, mul_zero] at hG
    exact hG rfl
  have hRnz0 : R 0 0 ≠ 0 := (mul_ne_zero_iff.mp (mul_ne_zero_iff.mp hprod).1).1
  have hRnz1 : R 1 1 ≠ 0 := (mul_ne_zero_iff.mp (mul_ne_zero_iff.mp hprod).1).2
  have hRnz2 : R 2 2 ≠ 0 := (mul_ne_zero_iff.mp hprod).2
  have hDD : signDiag R * signDiag R = 1 := by
    rw [signDiag, Matrix.diagonal_mul_diagonal]
    have hfun : (fun i : Fin 3 => qsign (R i i) * qsign (R i i)) = fun _ => 1 := by
      funext i
      fin_cases i
      · exact qsign_sq _ hRnz0
      · exact qsign_sq _ hRnz1
      · exact qsign_sq _ hRnz2
    rw [hfun, Matrix.diagonal_one]
  have hDT : Matrix.transpose (signDiag R) = signDiag R := Matrix.diagonal_transpose _
  have horth : Matrix.transpose (drawRotation Q R) * drawRotation Q R = 1 := by
    rw [drawRotation, Matrix.transpose_mul, hDT]
    have hassoc : signDiag R * Matrix.transpose Q * (Q * signDiag R)
        = signDiag R * ((Matrix.transpose Q * Q) * signDiag R) := by
      rw [mul_assoc, ← mul_assoc (Matrix.transpose Q) Q (signDiag R)]
    rw [hassoc, hQ, one_mul, hDD]
  have hdet : (drawRotation Q R).det = qsign G.det := by
    rw [drawRotation, Matrix.det_mul, signDiag, Matrix.det_diagonal, Fin.prod_univ_three]
    rw [hdetG, qsign_mul, qsign_mul, qsign_mul]
    have hq : qsign Q.det = Q.det := by
      rcases hQpm with h | h <;> rw [h] <;> norm_num [qsign]
    rw [hq]
  refine ⟨horth, hdet, ?_⟩
  rw [hdet]
  rcases hG.lt_or_lt with h | h
  · right
    exact qsign_of_neg _ h
  · left
    exact qsign_of_pos _ h

/-- Counterexample for C6: the gaussian draw diag(1, 1, -1) admits the QR
factorization Q = identity, R = the draw itself; the sign-corrected rotation
is orthogonal but has determinant -1, an improper rotation. -/
theorem spin_rotation_improper_counterexample :
    (Matrix.transpose (1 : RotM) * 1 = 1) ∧
      upperTri (Matrix.diagonal ![(1 : ℚ), 1, -1]) ∧
      Matrix.diagonal ![(1 : ℚ), 1, -1] = 1 * Matrix.diagonal ![(1 : ℚ), 1, -1] ∧
      (Matrix.diagonal ![(1 : ℚ), 1, -1]).det ≠ 0 ∧
      (drawRotation 1 (Matrix.diagonal ![(1 : ℚ), 1, -1])).det ≠ 1 := by
  refine ⟨by simp, ?_, by rw [one_mul], ?_, ?_⟩
  · intro i j hij
    refine Matrix.diagonal_apply_ne _ (fun hcontra => ?_)
    rw [hcontra] at hij
    exact lt_irrefl _ hij
  · rw [Matrix.det_diagonal, Fin.prod_univ_three]
    norm_num [Matrix.vecHead, Matrix.vecTail]
  · rw [drawRotation, one_mul, signDiag, Matrix.det_diagonal, Fin.prod_univ_three]
    norm_num [Matrix.diagonal_apply_eq, qsign, Matrix.vecHead, Matrix.vecTail]

/-- Witness for C6 (amended) at the identity QR triple. -/
theorem spin_rotation_orthogonal_det_witness :
    Matrix.transpose (drawRotation 1 1) * drawRotation 1 1 = 1 ∧
      (drawRotation 1 1).det = qsign ((1 : RotM).det) := by
  have hut : upperTri (1 : RotM) := by
    intro i j hij
    refine Matrix.one_apply_ne (fun hcontra => ?_)
    rw [hcontra] at hij
    exact lt_irrefl _ hij
  have h := spin_rotation_orthogonal_det 1 1 1 (by rw [one_mul]) (by simp) hut (by simp)
  exact ⟨h.1, h.2.1⟩

lemma reinsert_length : ∀ (d : List (Option ℚ)) (vs : Vec), (reinsert d vs).length = d.length := by
  intro d
  induction d with
  | nil => intro vs; rfl
  | cons a t ih =>
    intro vs
    cases a with
    | none => simp [reinsert, ih]
    | some x =>
      cases vs with
      | nil => simp [reinsert, ih]
      | cons v vs2 => simp [reinsert, ih]

lemma reinsert_none_iff : ∀ (d : List (Option ℚ)) (vs : Vec) (i : Nat),
    ((reinsert d vs).getD i (Option.some 0) = Option.none ↔
      d.getD i (Option.some 0) = Option.none) := by
  intro d
  induction d with
  | nil => intro vs i; exact Iff.rfl
  | cons a t ih =>
    intro vs i
    cases a with
    | none =>
      cases i with
      | zero => simp [reinsert]
      | succ m =>
        simp only [reinsert, List.getD_cons_succ]
        exact ih vs m
    | some x =>
      cases vs with
      | nil =>
        cases i with
        | zero => simp [reinsert]
        | succ m =>
          simp only [reinsert, List.getD_cons_succ]
          exact ih [] m
      | cons v vs2 =>
        cases i with
        | zero => simp [reinsert]
        | succ m =>
          simp only [reinsert, List.getD_cons_succ]
          exact ih vs2 m

/-- C8: Moran randomization returns exactly n_rep surrogate vectors, each of
the length of the input data, with NaN entries at exactly the positions where
the input data is NaN. -/
theorem moran_randomize_count_length_nan (msr : MoranRandomization) (data : List (Option ℚ))
    (entropy : Nat) :
    (msr.randomize data entropy).length = msr.n_rep ∧
      ∀ s ∈ msr.randomize data entropy,
        s.length = data.length ∧
          ∀ i, s.getD i (Option.some 0) = Option.none ↔
            data.getD i (Option.some 0) = Option.none := by
  constructor
  · simp [MoranRandomization.randomize]
  · intro s hs
    simp only [MoranRandomization.randomize, List.mem_map] at hs
    obtain ⟨rep, _, rfl⟩ := hs
    exact ⟨reinsert_length _ _, fun i => reinsert_none_iff _ _ i⟩

/-- Witness for C8 on a fitted instance with one retained eigenvector and a
data vector with one masked entry. -/
theorem moran_randomize_count_length_nan_witness :
    ((MoranRandomization.mk 2 MoranProcedure.singleton (Option.some 0) [[1, -1]]).randomize
        [Option.some 1, Option.none] 3).length = 2 ∧
      (reinsert [Option.some 1, Option.none]
        (moranSurrogate (MoranRandomization.mk 2 MoranProcedure.singleton (Option.some 0) [[1, -1]])
          ([Option.some 1, Option.none].filterMap id) 0 0)).length = 2 := by
  have h := moran_randomize_count_length_nan
    (MoranRandomization.mk 2 MoranProcedure.singleton (Option.some 0) [[1, -1]])
    [Option.some 1, Option.none] 3
  have hmem : reinsert [Option.some 1, Option.none]
      (moranSurrogate (MoranRandomization.mk 2 MoranProcedure.singleton (Option.some 0) [[1, -1]])
        ([Option.some 1, Option.none].filterMap id) 0 0)
      ∈ (MoranRandomization.mk 2 MoranProcedure.singleton (Option.some 0) [[1, -1]]).randomize
        [Option.some 1, Option.none] 3 :=
    List.mem_map_of_mem _ (by decide)
  exact ⟨h.1, (h.2 _ hmem).1⟩
